import Mathlib

/-!
# rpcns: the per-address pool of idle RPC client handles

A shallow embedding of `pool.go` and `net.go`.  The pool is embedded as a
sequential state machine: every method is a function on the pooler record.
The reader/writer lock is not part of the state, each method being one atomic
step.  Calls that leave the package (dialing, closing a client, a remote call,
closing the listener) are recorded in a trace, and their results come from
oracles that may depend on the trace so far.

Go run-time panics that the methods can raise are values of `Fault`.  The
largest channel that `make` can build depends on the platform and on the
memory at hand; it is a parameter of the state (`chanLimit`), capped by the
size that no run time accepts (`maxChanSize`).
Client handles are non-nil pointers; connections are identified by a number.
-/

namespace Rpcns

/-! ## net.go -/

/-- An `Address` is a `fmt.Stringer`.  The two ways the package builds one are
`NewAddressFromString` (a `stringerWrapper`) and `NewAddressFromAddr` (a
`net.Addr`, which has a network name besides its string form). -/
inductive Address where
  | stringerWrapper (s : String)
  | netAddr (network : String) (s : String)
deriving DecidableEq, Repr

/-- The `String()` method of an address. -/
def Address.String : Address → String
  | .stringerWrapper s => s
  | .netAddr _ s => s

/-- The function `NewAddressFromString(addr)`: a `stringerWrapper` holding `addr`. -/
def NewAddressFromString (addr : String) : Address := .stringerWrapper addr

/-- A `net.Conn`, identified by a number. -/
abbrev Conn := Nat

/-- A Go `error` value (non-nil), identified by its message. -/
abbrev Error := String

/-- A `*rpc.Client` (non-nil): the client built on a connection. -/
structure Client where
  conn : Conn
deriving DecidableEq, Repr

/-- The call `jsonrpc.NewClient(conn)`. -/
def NewClient (conn : Conn) : Client := ⟨conn⟩

/-- The `args` of a remote call, identified by a number. -/
abbrev Args := Nat

/-- The calls that leave the package, in the order in which they are made. -/
inductive Event where
  | dial (addr : Address)
  | clientClose (cl : Client)
  | clientCall (cl : Client) (serviceMethod : String) (args : Args)
  | listenerClose
deriving DecidableEq, Repr

/-- A `Dialer`: `Dial(Address) (net.Conn, error)`.  The result may depend on
what happened before. -/
abbrev Dialer := List Event → Address → Except Error Conn

/-- The behaviour of `*rpc.Client` values: the results of `Close()` and of
`Call(serviceMethod, args, reply)`; `none` is the nil error. -/
structure Rpc where
  Close : List Event → Client → Option Error
  Call : List Event → Client → String → Args → Option Error

/-! ## Channels -/

/-- A `chan *rpc.Client`: its capacity, the buffered clients (oldest first)
and whether `close` was called on it. -/
structure Chan where
  cap : Nat
  buf : List Client
  closed : Bool
deriving DecidableEq, Repr

/-- The channel `make(chan *rpc.Client, n)` for `n ≥ 0`. -/
def Chan.make (n : Nat) : Chan := ⟨n, [], false⟩

/-- The outcome of `case cl, ok := <-ch` inside a `select` with a `default`. -/
inductive Recv where
  | value (cl : Client) (rest : Chan)
  | notOk
  | wouldBlock
deriving DecidableEq, Repr

/-- A non-blocking receive: the oldest buffered client if there is one (also
from a closed channel); otherwise `ok = false` on a closed channel and the
`default` branch on an open one. -/
def Chan.tryRecv (ch : Chan) : Recv :=
  match ch.buf with
  | cl :: rest => .value cl { ch with buf := rest }
  | [] => if ch.closed then .notOk else .wouldBlock

/-- The outcome of `case ch <- cl` inside a `select` with a `default`. -/
inductive Send where
  | sent (ch : Chan)
  | sendOnClosed
  | wouldBlock
deriving DecidableEq, Repr

/-- A non-blocking send: a panic on a closed channel, an append when the
buffer has room, the `default` branch otherwise (an unbuffered channel has no
room: no receiver is ever blocked on it, every receive being non-blocking). -/
def Chan.trySend (ch : Chan) (cl : Client) : Send :=
  if ch.closed then .sendOnClosed
  else if ch.buf.length < ch.cap then .sent { ch with buf := ch.buf ++ [cl] }
  else .wouldBlock

/-! ## The map `map[string]chan *rpc.Client` -/

/-- The entries of an allocated map. -/
abbrev Entries := List (String × Chan)

/-- Reading `m[k]` from the entries: `none` is the nil channel. -/
def Entries.lookup (k : String) : Entries → Option Chan
  | [] => none
  | (k', v) :: m => if k' = k then some v else Entries.lookup k m

/-- The entries after `delete(m, k)`. -/
def Entries.delete (k : String) (m : Entries) : Entries :=
  m.filter (fun p => decide (p.1 ≠ k))

/-- The entries after `m[k] = v`, also used when the channel stored under `k`
changes its contents. -/
def Entries.store (k : String) (v : Chan) : Entries → Entries
  | [] => [(k, v)]
  | (k', v') :: m => if k' = k then (k, v) :: m else (k', v') :: Entries.store k v m

/-- The keys, in the order in which `range` visits them in this model (Go
leaves the order unspecified). -/
def Entries.keys (m : Entries) : List String := m.map Prod.fst

/-! ## pool.go -/

/-- The struct `closeablePooler` (without its lock): `dialer`, `pool` (`none`
is the nil map) and `max`; with them the environment of the program: the
largest size `n` for which `make(chan *rpc.Client, n)` completes on the
platform and with the memory at hand (`chanLimit`), the behaviour of the client
handles and the trace of outside calls made so far. -/
structure closeablePooler where
  dialer : Dialer
  pool : Option Entries
  max : Int
  chanLimit : Nat
  rpc : Rpc
  trace : List Event

/-- Run-time panics of the pool's methods: an assignment to an entry of a nil
map, a `make` of a channel whose size is negative or beyond what the run time
can build (`makechan: size out of range`), a send on a closed channel. -/
inductive Fault where
  | nilMapAssign
  | makechanSize
  | sendOnClosed
deriving DecidableEq, Repr

/-- The size above which `make(chan *rpc.Client, n)` panics on every platform:
the buffer of `n` pointers of 8 bytes would exceed the `2 ^ 48` bytes the
allocator can address, so `n` is at most `2 ^ 45`. -/
def maxChanSize : Nat := 35184372088832

/-- The largest size of which `make` builds a channel for this pool: the limit
of its environment, and never more than `maxChanSize`. -/
def closeablePooler.makeLimit (c : closeablePooler) : Nat := min c.chanLimit maxChanSize

/-- The function `NewCloseablePooler(d, max)`: the literal sets `dialer` and
`max` only, so `pool` is the nil map. -/
def NewCloseablePooler (d : Dialer) (max : Int) (chanLimit : Nat) (rpc : Rpc)
    (trace : List Event) : closeablePooler :=
  { dialer := d, pool := none, max := max, chanLimit := chanLimit, rpc := rpc,
    trace := trace }

/-- The entries of the pool; a nil map has none. -/
def closeablePooler.entries (c : closeablePooler) : Entries := c.pool.getD []

/-- Reading `c.pool[k]`; reading a nil map gives the nil channel. -/
def closeablePooler.chan (c : closeablePooler) (k : String) : Option Chan :=
  c.entries.lookup k

/-- The idle handles queued for an address, oldest first. -/
def closeablePooler.queue (c : closeablePooler) (addr : Address) : List Client :=
  match c.chan addr.String with
  | some ch => ch.buf
  | none => []

/-- The idle count of an address. -/
def closeablePooler.idle (c : closeablePooler) (addr : Address) : Nat :=
  (c.queue addr).length

/-- The `closer` loop of `Clear` on the remaining buffer of the channel: each
round receives the oldest client and calls `Close` on it (the result is
dropped). -/
def closer : List Client → List Event → List Event
  | [], trace => trace
  | cl :: rest, trace => closer rest (trace ++ [Event.clientClose cl])

/-- The method `Clear(addr)`.  With no channel under the key nothing happens.
Otherwise the loop empties the buffer; an open channel then takes the `default` branch,
is closed and deleted from the map, while on a closed channel the receive
reports `!ok` and the method returns with the emptied channel still stored. -/
def closeablePooler.Clear (addr : Address) (c : closeablePooler) : closeablePooler :=
  match c.chan addr.String with
  | none => c
  | some ch =>
    let trace := closer ch.buf c.trace
    if ch.closed then
      { c with pool := c.pool.map (Entries.store addr.String { ch with buf := [] }),
               trace := trace }
    else
      { c with pool := c.pool.map (Entries.delete addr.String), trace := trace }

/-- The method `Init(addr)`: `Clear(addr)`, then
`c.pool[addr.String()] = make(chan, c.max)`.  The right-hand side is evaluated
first and panics for a size that is negative or larger than the run time can
build; the assignment panics on a nil map. -/
def closeablePooler.Init (addr : Address) (c : closeablePooler) :
    Except Fault closeablePooler :=
  let c1 := c.Clear addr
  if c1.max < 0 ∨ (c1.makeLimit : Int) < c1.max then .error .makechanSize
  else
    match c1.pool with
    | none => .error .nilMapAssign
    | some m =>
      .ok { c1 with pool := some (m.store addr.String (Chan.make c1.max.toNat)) }

/-- The release function returned by `Aquire`, a closure that calls
`c.Return(addr, cl)`. -/
structure Release where
  addr : Address
  cl : Client
deriving DecidableEq, Repr

/-- The method `Aquire(addr)`: the result is `.ok (cl, release)` for
`(cl, release, nil)` and `.error err` for `(nil, nil, err)`.  A client received from the channel
is returned; otherwise (no channel, empty channel, closed channel) the
dialer is called and a new client is built on the connection. -/
def closeablePooler.Aquire (addr : Address) (c : closeablePooler) :
    Except Error (Client × Release) × closeablePooler :=
  let dial : Except Error (Client × Release) × closeablePooler :=
    let c1 := { c with trace := c.trace ++ [Event.dial addr] }
    match c.dialer c.trace addr with
    | .error err => (.error err, c1)
    | .ok conn => (.ok (NewClient conn, ⟨addr, NewClient conn⟩), c1)
  match c.chan addr.String with
  | none => dial
  | some ch =>
    match ch.tryRecv with
    | .value cl rest =>
      (.ok (cl, ⟨addr, cl⟩), { c with pool := c.pool.map (Entries.store addr.String rest) })
    | .notOk => dial
    | .wouldBlock => dial

/-- The `select` of `Return`: a non-blocking send of the client on the channel
stored under the key; when the send is not possible (`default`) the method
returns `cl.Close()`.  A send on a nil channel is never ready. -/
def closeablePooler.sendOrClose (addr : Address) (cl : Client) (c : closeablePooler) :
    Except Fault (Option Error × closeablePooler) :=
  let close : Except Fault (Option Error × closeablePooler) :=
    .ok (c.rpc.Close c.trace cl, { c with trace := c.trace ++ [Event.clientClose cl] })
  match c.chan addr.String with
  | none => close
  | some ch =>
    match ch.trySend cl with
    | .sent ch1 => .ok (none, { c with pool := c.pool.map (Entries.store addr.String ch1) })
    | .sendOnClosed => .error .sendOnClosed
    | .wouldBlock => close

/-- The method `Return(addr, cl)`: `Init(addr)` when there is no channel under
the key, then the `select`. -/
def closeablePooler.Return (addr : Address) (cl : Client) (c : closeablePooler) :
    Except Fault (Option Error × closeablePooler) :=
  let afterInit : Except Fault closeablePooler :=
    match c.chan addr.String with
    | none => c.Init addr
    | some _ => .ok c
  match afterInit with
  | .error f => .error f
  | .ok c1 => c1.sendOrClose addr cl

/-- Running a release function. -/
def Release.run (r : Release) (c : closeablePooler) :
    Except Fault (Option Error × closeablePooler) :=
  c.Return r.addr r.cl

/-- The method `Call(addr, serviceMethod, args, reply)`: `Aquire`; on an error
that error is returned; otherwise the remote call is made on the client, then the
deferred release function runs (its result is dropped) and the result of the
remote call is returned. -/
def closeablePooler.Call (addr : Address) (serviceMethod : String) (args : Args)
    (c : closeablePooler) : Except Fault (Option Error × closeablePooler) :=
  match c.Aquire addr with
  | (.error err, c1) => .ok (some err, c1)
  | (.ok (cl, returnFn), c1) =>
    let res := c1.rpc.Call c1.trace cl serviceMethod args
    let c2 := { c1 with trace := c1.trace ++ [Event.clientCall cl serviceMethod args] }
    match returnFn.run c2 with
    | .error f => .error f
    | .ok (_, c3) => .ok (res, c3)

/-- The method `List()`: one address per key of the map, in the order of the
keys (Go leaves the order unspecified). -/
def closeablePooler.List (c : closeablePooler) : List Address :=
  c.entries.keys.map NewAddressFromString

/-- The loop of `Close` over the keys still to visit: `Clear` of the address
made from each key.  (`Clear` of a key removes no other key, so every key the
map holds at the start is visited.) -/
def rangeClear : List String → closeablePooler → closeablePooler
  | [], c => c
  | k :: ks, c => rangeClear ks (c.Clear (NewAddressFromString k))

/-- The method `Close()`: `Clear` for every key of the map; the result is the
nil error. -/
def closeablePooler.Close (c : closeablePooler) : Option Error × closeablePooler :=
  (none, rangeClear c.entries.keys c)

/-! ## net.go: `TCP` -/

/-- The `Close() error` of a `net.Listener`. -/
structure Listener where
  Close : List Event → Option Error

/-- The struct `TCP`: its listener and its pool (the embedded `Pooler` and the
field `pl` are the same pool). -/
structure TCP where
  li : Listener
  pl : closeablePooler

/-- The method `TCP.Close`: `err = t.li.Close()`, `err = t.pl.Close()`, `return`.
The listener's result is overwritten by the pool's. -/
def TCP.Close (t : TCP) : Option Error × TCP :=
  let _err := t.li.Close t.pl.trace
  let pl1 := { t.pl with trace := t.pl.trace ++ [Event.listenerClose] }
  let r := pl1.Close
  (r.1, { t with pl := r.2 })

/-! ## Well-formed pool states -/

/-- The invariant of the methods: the keys of the map are distinct, and every
stored channel is open, has the capacity `max` that `Init` gives it and buffers
no more than its capacity.  It holds for the pool that `NewCloseablePooler`
returns and for an allocated map without entries, and every method that
completes keeps it. -/
def WF (c : closeablePooler) : Prop :=
  c.entries.keys.Nodup ∧
    ∀ p ∈ c.entries, p.2.cap = c.max.toNat ∧ p.2.buf.length ≤ p.2.cap ∧ p.2.closed = false

instance (c : closeablePooler) : Decidable (WF c) := by
  unfold WF; infer_instance

/-- Every queue of the pool holds at most `max` idle handles. -/
def Bounded (c : closeablePooler) : Prop :=
  ∀ p ∈ c.entries, (p.2.buf.length : Int) ≤ c.max

instance (c : closeablePooler) : Decidable (Bounded c) := by
  unfold Bounded; infer_instance

/-- Every idle handle of the pool, queue after queue. -/
def allIdle (c : closeablePooler) : List Client :=
  (c.entries.map (fun p => p.2.buf)).flatten


/-! ## Operations as steps -/

/-- The operations of the pool, with their arguments. -/
inductive Op where
  | Init (addr : Address)
  | Clear (addr : Address)
  | Aquire (addr : Address)
  | Return (addr : Address) (cl : Client)
  | Call (addr : Address) (serviceMethod : String) (args : Args)
  | List
  | Close
deriving DecidableEq, Repr

/-- The state after an operation that completes; `List` only reads. -/
def step : Op → closeablePooler → Except Fault closeablePooler
  | .Init a, c => c.Init a
  | .Clear a, c => .ok (c.Clear a)
  | .Aquire a, c => .ok (c.Aquire a).2
  | .Return a cl, c => (c.Return a cl).map Prod.snd
  | .Call a m args, c => (c.Call a m args).map Prod.snd
  | .List, c => .ok c
  | .Close, c => .ok c.Close.2

/-- The calls `Return(addr, cl)` for each client of a list in turn, with nothing
in between. -/
def returnAll (addr : Address) : List Client → closeablePooler → Except Fault closeablePooler
  | [], c => .ok c
  | cl :: rest, c =>
    match c.Return addr cl with
    | .error f => .error f
    | .ok (_, c1) => returnAll addr rest c1

/-! ## Concrete pools -/

/-- A dialer that refuses the address `down` and otherwise connects. -/
def exDialer : Dialer :=
  fun trace a => if a.String = "down" then .error "connection refused" else .ok trace.length

/-- Client handles whose `Close` fails once they were closed before, and whose
calls succeed. -/
def exRpc : Rpc where
  Close := fun trace cl =>
    if Event.clientClose cl ∈ trace then some "connection is shut down" else none
  Call := fun _ _ _ _ => none

/-- The largest channel of pointers that the run time accepts on 64-bit Linux
when the header of a channel takes 96 bytes: `(2 ^ 48 - 96) / 8`. -/
def exLimit : Nat := 35184372088820

/-- A pool with `max = 2`, a full queue for `x` and one idle handle for `y`. -/
def exPool : closeablePooler where
  dialer := exDialer
  pool := some [("x", ⟨2, [⟨11⟩, ⟨12⟩], false⟩), ("y", ⟨2, [⟨13⟩], false⟩)]
  max := 2
  chanLimit := exLimit
  rpc := exRpc
  trace := []

/-- A pool with `max = 2` and an allocated map without entries. -/
def exEmpty : closeablePooler where
  dialer := exDialer
  pool := some []
  max := 2
  chanLimit := exLimit
  rpc := exRpc
  trace := []

/-- A pool with `max = 0` and an allocated map without entries. -/
def exZero : closeablePooler where
  dialer := exDialer
  pool := some []
  max := 0
  chanLimit := exLimit
  rpc := exRpc
  trace := []

/-- A pool with `max = 2 ^ 62` and an allocated map without entries. -/
def exHuge : closeablePooler where
  dialer := exDialer
  pool := some []
  max := 4611686018427387904
  chanLimit := exLimit
  rpc := exRpc
  trace := []

/-- A pool with `max = -1` and an allocated map without entries. -/
def exNegative : closeablePooler where
  dialer := exDialer
  pool := some []
  max := -1
  chanLimit := exLimit
  rpc := exRpc
  trace := []

/-- A listener whose `Close` fails. -/
def exListener : Listener where
  Close := fun _ => some "use of closed network connection"


/-! # Theorems -/

/-! ## Lemmas about the map -/

theorem Entries.lookup_store_same (k : String) (v : Chan) (m : Entries) :
    (m.store k v).lookup k = some v := by
  induction m with
  | nil => simp [Entries.store, Entries.lookup]
  | cons p m ih =>
    obtain ⟨k', v'⟩ := p
    by_cases h : k' = k
    · simp [Entries.store, Entries.lookup, h]
    · simp [Entries.store, Entries.lookup, h, ih]

theorem Entries.lookup_store_other (k k' : String) (v : Chan) (m : Entries) (h : k' ≠ k) :
    (m.store k v).lookup k' = m.lookup k' := by
  induction m with
  | nil => simp [Entries.store, Entries.lookup, Ne.symm h]
  | cons p m ih =>
    obtain ⟨k1, v1⟩ := p
    by_cases h1 : k1 = k
    · subst h1
      simp [Entries.store, Entries.lookup, Ne.symm h]
    · by_cases h2 : k1 = k'
      · subst h2
        simp [Entries.store, Entries.lookup, h]
      · simp [Entries.store, Entries.lookup, h1, h2, ih]

theorem Entries.lookup_delete_same (k : String) (m : Entries) :
    (m.delete k).lookup k = none := by
  induction m with
  | nil => simp [Entries.delete, Entries.lookup]
  | cons p m ih =>
    obtain ⟨k1, v1⟩ := p
    by_cases h1 : k1 = k
    · simpa [Entries.delete, h1] using ih
    · simpa [Entries.delete, Entries.lookup, h1] using ih

theorem Entries.lookup_delete_other (k k' : String) (m : Entries) (h : k' ≠ k) :
    (m.delete k).lookup k' = m.lookup k' := by
  induction m with
  | nil => simp [Entries.delete, Entries.lookup]
  | cons p m ih =>
    obtain ⟨k1, v1⟩ := p
    by_cases h1 : k1 = k
    · subst h1
      simpa [Entries.delete, Entries.lookup, Ne.symm h] using ih
    · by_cases h2 : k1 = k'
      · subst h2
        simp [Entries.delete, Entries.lookup, h]
      · simpa [Entries.delete, Entries.lookup, h1, h2] using ih

theorem Entries.lookup_eq_none_iff (k : String) (m : Entries) :
    m.lookup k = none ↔ k ∉ m.keys := by
  induction m with
  | nil => simp [Entries.keys, Entries.lookup]
  | cons p m ih =>
    obtain ⟨k1, v1⟩ := p
    by_cases h1 : k1 = k
    · simp [Entries.lookup, Entries.keys, h1]
    · have h2 : ¬ k = k1 := fun h => h1 h.symm
      simpa [Entries.lookup, Entries.keys, h1, h2] using ih

theorem Entries.mem_of_lookup (k : String) (v : Chan) (m : Entries)
    (h : m.lookup k = some v) : (k, v) ∈ m := by
  induction m with
  | nil => simp [Entries.lookup] at h
  | cons p m ih =>
    obtain ⟨k1, v1⟩ := p
    by_cases h1 : k1 = k
    · simp [Entries.lookup, h1] at h
      simp [h1, h]
    · simp [Entries.lookup, h1] at h
      exact List.mem_cons_of_mem _ (ih h)

theorem Entries.mem_store (k : String) (v : Chan) (m : Entries) (p : String × Chan)
    (h : p ∈ m.store k v) : p = (k, v) ∨ p ∈ m := by
  induction m with
  | nil => simpa [Entries.store] using h
  | cons q m ih =>
    obtain ⟨k1, v1⟩ := q
    by_cases h1 : k1 = k
    · simp [Entries.store, h1] at h
      rcases h with h | h
      · exact Or.inl h
      · exact Or.inr (List.mem_cons_of_mem _ h)
    · simp [Entries.store, h1] at h
      rcases h with h | h
      · exact Or.inr (by simp [h])
      · rcases ih h with h | h
        · exact Or.inl h
        · exact Or.inr (List.mem_cons_of_mem _ h)

theorem Entries.mem_delete (k : String) (m : Entries) (p : String × Chan)
    (h : p ∈ m.delete k) : p ∈ m ∧ p.1 ≠ k := by
  simpa [Entries.delete] using h

theorem Entries.keys_store_of_mem (k : String) (v : Chan) (m : Entries) (h : k ∈ m.keys) :
    (m.store k v).keys = m.keys := by
  induction m with
  | nil => simp [Entries.keys] at h
  | cons q m ih =>
    obtain ⟨k1, v1⟩ := q
    by_cases h1 : k1 = k
    · simp [Entries.store, Entries.keys, h1]
    · have h2 : ¬ k = k1 := fun h => h1 h.symm
      simp [Entries.keys, h2] at h
      have := ih (by simpa [Entries.keys] using h)
      simpa [Entries.store, Entries.keys, h1] using this

theorem Entries.keys_store_of_not_mem (k : String) (v : Chan) (m : Entries) (h : k ∉ m.keys) :
    (m.store k v).keys = m.keys ++ [k] := by
  induction m with
  | nil => simp [Entries.keys, Entries.store]
  | cons q m ih =>
    obtain ⟨k1, v1⟩ := q
    have h1 : ¬ k1 = k := by
      intro h1; apply h; simp [Entries.keys, h1]
    have h3 : k ∉ Entries.keys m := by
      intro h3; apply h; simp only [Entries.keys, List.map_cons, List.mem_cons]
      exact Or.inr h3
    have := ih h3
    simpa [Entries.store, Entries.keys, h1] using this

theorem Entries.nodup_store (k : String) (v : Chan) (m : Entries) (h : m.keys.Nodup) :
    (m.store k v).keys.Nodup := by
  by_cases hk : k ∈ m.keys
  · rw [Entries.keys_store_of_mem k v m hk]; exact h
  · rw [Entries.keys_store_of_not_mem k v m hk]
    exact List.Nodup.append h (List.nodup_singleton k) (by simpa using hk)

theorem Entries.nodup_delete (k : String) (m : Entries) (h : m.keys.Nodup) :
    (m.delete k).keys.Nodup := by
  unfold Entries.keys Entries.delete
  exact (List.Nodup.sublist ((List.filter_sublist m).map Prod.fst) h)

theorem Entries.not_mem_keys_delete (k : String) (m : Entries) : k ∉ (m.delete k).keys := by
  rw [← Entries.lookup_eq_none_iff]; exact Entries.lookup_delete_same k m

theorem Entries.delete_of_not_mem (k : String) (m : Entries) (h : k ∉ m.keys) :
    m.delete k = m := by
  unfold Entries.delete
  rw [List.filter_eq_self]
  intro p hp
  have : p.1 ≠ k := by
    intro hk; apply h; rw [← hk]; exact List.mem_map_of_mem _ hp
  simpa using this


/-! ## Lemmas about `Clear` and `Init` -/

theorem closer_eq (buf : List Client) (trace : List Event) :
    closer buf trace = trace ++ buf.map Event.clientClose := by
  induction buf generalizing trace with
  | nil => simp [closer]
  | cons cl rest ih => simp [closer, ih]

theorem chan_eq_none_of_pool_none (c : closeablePooler) (k : String) (h : c.pool = none) :
    c.chan k = none := by
  simp [closeablePooler.chan, closeablePooler.entries, h, Entries.lookup]

theorem Clear_of_absent (c : closeablePooler) (a : Address) (h : c.chan a.String = none) :
    c.Clear a = c := by
  simp [closeablePooler.Clear, h]

theorem Clear_of_open (c : closeablePooler) (a : Address) (ch : Chan)
    (h : c.chan a.String = some ch) (ho : ch.closed = false) :
    c.Clear a = { c with pool := c.pool.map (Entries.delete a.String),
                         trace := c.trace ++ ch.buf.map Event.clientClose } := by
  simp [closeablePooler.Clear, h, ho, closer_eq]

theorem Clear_max (c : closeablePooler) (a : Address) : (c.Clear a).max = c.max := by
  unfold closeablePooler.Clear
  split
  · rfl
  · split <;> rfl

theorem Clear_makeLimit (c : closeablePooler) (a : Address) :
    (c.Clear a).makeLimit = c.makeLimit := by
  unfold closeablePooler.Clear
  split
  · rfl
  · split <;> rfl

theorem Clear_dialer (c : closeablePooler) (a : Address) : (c.Clear a).dialer = c.dialer := by
  unfold closeablePooler.Clear
  split
  · rfl
  · split <;> rfl

theorem Clear_rpc (c : closeablePooler) (a : Address) : (c.Clear a).rpc = c.rpc := by
  unfold closeablePooler.Clear
  split
  · rfl
  · split <;> rfl

theorem Clear_trace (c : closeablePooler) (a : Address) :
    (c.Clear a).trace = c.trace ++ (c.queue a).map Event.clientClose := by
  cases h : c.chan a.String with
  | none => simp [closeablePooler.Clear, closeablePooler.queue, h]
  | some ch =>
    by_cases hc : ch.closed = true <;>
      simp [closeablePooler.Clear, closeablePooler.queue, h, hc, closer_eq]

theorem Clear_pool_eq_none (c : closeablePooler) (a : Address) :
    (c.Clear a).pool = none ↔ c.pool = none := by
  unfold closeablePooler.Clear
  split
  · rfl
  · split <;> simp

theorem chan_open_of_WF (c : closeablePooler) (k : String) (ch : Chan) (hwf : WF c)
    (h : c.chan k = some ch) :
    ch.cap = c.max.toNat ∧ ch.buf.length ≤ ch.cap ∧ ch.closed = false :=
  hwf.2 (k, ch) (Entries.mem_of_lookup k ch c.entries h)

theorem Clear_entries (c : closeablePooler) (a : Address) (hwf : WF c) :
    (c.Clear a).entries = c.entries.delete a.String := by
  cases h : c.chan a.String with
  | none =>
    rw [Clear_of_absent c a h, Entries.delete_of_not_mem]
    exact (Entries.lookup_eq_none_iff _ _).1 h
  | some ch =>
    rw [Clear_of_open c a ch h (chan_open_of_WF c _ ch hwf h).2.2]
    cases hp : c.pool with
    | none => simp [closeablePooler.entries, hp, Entries.delete]
    | some m => simp [closeablePooler.entries, hp]

theorem WF_Clear (c : closeablePooler) (a : Address) (hwf : WF c) : WF (c.Clear a) := by
  refine ⟨?_, ?_⟩
  · rw [Clear_entries c a hwf]; exact Entries.nodup_delete _ _ hwf.1
  · intro p hp
    rw [Clear_entries c a hwf] at hp
    rw [Clear_max]
    exact hwf.2 p (Entries.mem_delete _ _ p hp).1

theorem Clear_chan_same (c : closeablePooler) (a : Address) (hwf : WF c) :
    (c.Clear a).chan a.String = none := by
  unfold closeablePooler.chan
  rw [Clear_entries c a hwf]; exact Entries.lookup_delete_same _ _

theorem Clear_chan_other (c : closeablePooler) (a : Address) (k : String)
    (hk : k ≠ a.String) : (c.Clear a).chan k = c.chan k := by
  unfold closeablePooler.Clear
  split
  · rfl
  · rename_i ch hch
    cases hp : c.pool with
    | none => split <;> simp [closeablePooler.chan, closeablePooler.entries, hp]
    | some m =>
      split
      · simp [closeablePooler.chan, closeablePooler.entries, hp,
          Entries.lookup_store_other _ _ _ _ hk]
      · simp [closeablePooler.chan, closeablePooler.entries, hp,
          Entries.lookup_delete_other _ _ _ hk]

/-- What `Init` does on an allocated map with a non-negative `max`. -/
theorem Init_of_alloc (c : closeablePooler) (a : Address) (hmax : 0 ≤ c.max)
    (hlim : c.max ≤ (c.makeLimit : Int)) (hp : c.pool ≠ none) :
    ∃ c1, c.Init a = .ok c1 ∧
      c1.entries = (c.Clear a).entries.store a.String (Chan.make c.max.toNat) ∧
      c1.pool ≠ none ∧ c1.max = c.max ∧ c1.dialer = c.dialer ∧ c1.rpc = c.rpc ∧
      c1.trace = c.trace ++ (c.queue a).map Event.clientClose := by
  have h1 : ¬ ((c.Clear a).max < 0 ∨ ((c.Clear a).makeLimit : Int) < (c.Clear a).max) := by
    rw [Clear_max, Clear_makeLimit]; omega
  have h2 : (c.Clear a).pool ≠ none := fun h => hp ((Clear_pool_eq_none c a).1 h)
  cases hm : (c.Clear a).pool with
  | none => exact absurd hm h2
  | some m =>
    refine ⟨{ c.Clear a with pool := some (m.store a.String (Chan.make (c.Clear a).max.toNat)) },
      ?_, ?_, ?_, ?_, ?_, ?_, ?_⟩
    · simp [closeablePooler.Init, h1, hm]
    · simp [closeablePooler.entries, hm, Clear_max]
    · simp
    · simp [Clear_max]
    · simp [Clear_dialer]
    · simp [Clear_rpc]
    · simp [Clear_trace]

theorem Init_ok_inv (c c1 : closeablePooler) (a : Address) (h : c.Init a = .ok c1) :
    0 ≤ c.max ∧ c.max ≤ (c.makeLimit : Int) ∧ c.pool ≠ none := by
  unfold closeablePooler.Init at h
  simp only at h
  split at h
  · cases h
  · rename_i hlt
    rw [Clear_max, Clear_makeLimit] at hlt
    refine ⟨by omega, by omega, ?_⟩
    intro hp
    rw [(Clear_pool_eq_none c a).2 hp] at h
    cases h

theorem WF_Init (c c1 : closeablePooler) (a : Address) (hwf : WF c)
    (h : c.Init a = .ok c1) : WF c1 := by
  obtain ⟨hmax, hlim, hp⟩ := Init_ok_inv c c1 a h
  obtain ⟨c2, h2, he, -, hm, -, -, -⟩ := Init_of_alloc c a hmax hlim hp
  rw [h2] at h
  cases h
  have hc := WF_Clear c a hwf
  refine ⟨?_, ?_⟩
  · rw [he]; exact Entries.nodup_store _ _ _ hc.1
  · intro p hp
    rw [he] at hp
    rw [hm]
    rcases Entries.mem_store _ _ _ p hp with h | h
    · subst h; simp [Chan.make]
    · have := hc.2 p h
      rwa [Clear_max] at this


/-! ## Lemmas about `Aquire`, `Return` and `Call` -/

theorem pool_ne_none_of_chan (c : closeablePooler) (k : String) (ch : Chan)
    (h : c.chan k = some ch) : c.pool ≠ none := by
  intro hp
  rw [chan_eq_none_of_pool_none c k hp] at h
  cases h

theorem entries_store (c : closeablePooler) (k : String) (v : Chan) (tr : List Event)
    (hp : c.pool ≠ none) :
    ({ c with pool := c.pool.map (Entries.store k v), trace := tr } : closeablePooler).entries
      = c.entries.store k v := by
  cases h : c.pool with
  | none => exact absurd h hp
  | some m => simp [closeablePooler.entries, h]

theorem Aquire_hit (c : closeablePooler) (a : Address) (ch : Chan) (h : Client)
    (rest : List Client) (hch : c.chan a.String = some ch) (hb : ch.buf = h :: rest) :
    c.Aquire a = (.ok (h, ⟨a, h⟩),
      { c with pool := c.pool.map (Entries.store a.String { ch with buf := rest }) }) := by
  simp [closeablePooler.Aquire, hch, Chan.tryRecv, hb]

theorem Aquire_miss (c : closeablePooler) (a : Address) (hq : c.queue a = []) :
    c.Aquire a =
      (match c.dialer c.trace a with
        | .error err => .error err
        | .ok conn => .ok (NewClient conn, ⟨a, NewClient conn⟩),
       { c with trace := c.trace ++ [Event.dial a] }) := by
  unfold closeablePooler.queue at hq
  cases hch : c.chan a.String with
  | none =>
    simp only [closeablePooler.Aquire, hch]
    cases c.dialer c.trace a <;> rfl
  | some ch =>
    rw [hch] at hq
    simp only at hq
    by_cases hc : ch.closed = true <;>
      (simp only [closeablePooler.Aquire, hch, Chan.tryRecv, hq, hc]
       cases c.dialer c.trace a <;> simp)

theorem WF_set_trace (c : closeablePooler) (tr : List Event) (hwf : WF c) :
    WF { c with trace := tr } := hwf

theorem WF_store (c : closeablePooler) (k : String) (v : Chan) (hwf : WF c)
    (hp : c.pool ≠ none)
    (hv : v.cap = c.max.toNat ∧ v.buf.length ≤ v.cap ∧ v.closed = false) :
    WF { c with pool := c.pool.map (Entries.store k v) } := by
  have he := entries_store c k v c.trace hp
  refine ⟨?_, ?_⟩
  · rw [he]; exact Entries.nodup_store _ _ _ hwf.1
  · intro p hp
    rw [he] at hp
    rcases Entries.mem_store _ _ _ p hp with h | h
    · subst h; exact hv
    · exact hwf.2 p h

theorem WF_Aquire (c : closeablePooler) (a : Address) (hwf : WF c) : WF (c.Aquire a).2 := by
  cases hq : c.queue a with
  | nil => rw [Aquire_miss c a hq]; exact hwf
  | cons h rest =>
    unfold closeablePooler.queue at hq
    cases hch : c.chan a.String with
    | none => rw [hch] at hq; cases hq
    | some ch =>
      rw [hch] at hq
      simp only at hq
      rw [Aquire_hit c a ch h rest hch hq]
      have := chan_open_of_WF c _ ch hwf hch
      refine WF_store c _ _ hwf (pool_ne_none_of_chan c _ ch hch) ⟨this.1, ?_, this.2.2⟩
      have h2 := this.2.1
      rw [hq] at h2
      simp at h2 ⊢
      omega

/-- The `select` of `Return` on an open channel with room: the client is
appended to the buffer. -/
theorem sendOrClose_room (c : closeablePooler) (a : Address) (cl : Client) (ch : Chan)
    (hch : c.chan a.String = some ch) (ho : ch.closed = false)
    (hr : ch.buf.length < ch.cap) :
    c.sendOrClose a cl = .ok (none,
      { c with pool := c.pool.map (Entries.store a.String { ch with buf := ch.buf ++ [cl] }) }) := by
  simp [closeablePooler.sendOrClose, hch, Chan.trySend, ho, hr]

/-- The `select` of `Return` on an open channel without room: the client is
closed. -/
theorem sendOrClose_full (c : closeablePooler) (a : Address) (cl : Client) (ch : Chan)
    (hch : c.chan a.String = some ch) (ho : ch.closed = false)
    (hr : ¬ ch.buf.length < ch.cap) :
    c.sendOrClose a cl = .ok (c.rpc.Close c.trace cl,
      { c with trace := c.trace ++ [Event.clientClose cl] }) := by
  simp [closeablePooler.sendOrClose, hch, Chan.trySend, ho, hr]

theorem WF_sendOrClose (c c1 : closeablePooler) (a : Address) (cl : Client)
    (r : Option Error) (hwf : WF c) (h : c.sendOrClose a cl = .ok (r, c1)) : WF c1 := by
  cases hch : c.chan a.String with
  | none =>
    simp [closeablePooler.sendOrClose, hch] at h
    rw [← h.2]; exact hwf
  | some ch =>
    have hw := chan_open_of_WF c _ ch hwf hch
    by_cases hr : ch.buf.length < ch.cap
    · rw [sendOrClose_room c a cl ch hch hw.2.2 hr] at h
      simp at h
      rw [← h.2]
      refine WF_store c _ _ hwf (pool_ne_none_of_chan c _ ch hch) ⟨hw.1, ?_, hw.2.2⟩
      simp; omega
    · rw [sendOrClose_full c a cl ch hch hw.2.2 hr] at h
      simp at h
      rw [← h.2]; exact hwf

theorem Return_of_present (c : closeablePooler) (a : Address) (cl : Client) (ch : Chan)
    (hch : c.chan a.String = some ch) : c.Return a cl = c.sendOrClose a cl := by
  simp [closeablePooler.Return, hch]

theorem Return_of_absent (c : closeablePooler) (a : Address) (cl : Client)
    (hch : c.chan a.String = none) :
    c.Return a cl = match c.Init a with
      | .error f => .error f
      | .ok c1 => c1.sendOrClose a cl := by
  simp [closeablePooler.Return, hch]

theorem WF_Return (c c1 : closeablePooler) (a : Address) (cl : Client) (r : Option Error)
    (hwf : WF c) (h : c.Return a cl = .ok (r, c1)) : WF c1 := by
  cases hch : c.chan a.String with
  | some ch =>
    rw [Return_of_present c a cl ch hch] at h
    exact WF_sendOrClose c c1 a cl r hwf h
  | none =>
    rw [Return_of_absent c a cl hch] at h
    cases hi : c.Init a with
    | error f => rw [hi] at h; cases h
    | ok c2 =>
      rw [hi] at h
      exact WF_sendOrClose c2 c1 a cl r (WF_Init c c2 a hwf hi) h

theorem WF_Call (c c1 : closeablePooler) (a : Address) (m : String) (args : Args)
    (r : Option Error) (hwf : WF c) (h : c.Call a m args = .ok (r, c1)) : WF c1 := by
  unfold closeablePooler.Call at h
  have hA := WF_Aquire c a hwf
  cases hq : c.Aquire a with
  | mk res c2 =>
    rw [hq] at h hA
    cases res with
    | error err =>
      simp at h
      rw [← h.2]; exact hA
    | ok p =>
      obtain ⟨cl, rel⟩ := p
      simp only at h
      split at h
      · cases h
      · rename_i r3 c3 hrun
        simp at h
        rw [← h.2]
        exact WF_Return _ c3 rel.addr rel.cl r3 (WF_set_trace c2 _ hA) hrun


/-! ## Lemmas about `Close` -/

theorem WF_rangeClear (ks : List String) (c : closeablePooler) (hwf : WF c) :
    WF (rangeClear ks c) := by
  induction ks generalizing c with
  | nil => exact hwf
  | cons k ks ih => exact ih _ (WF_Clear c _ hwf)

theorem rangeClear_max (ks : List String) (c : closeablePooler) :
    (rangeClear ks c).max = c.max := by
  induction ks generalizing c with
  | nil => rfl
  | cons k ks ih => simp only [rangeClear]; rw [ih, Clear_max]

theorem queue_head (c : closeablePooler) (k : String) (ch : Chan) (m : Entries)
    (h : c.entries = (k, ch) :: m) : c.queue (NewAddressFromString k) = ch.buf := by
  simp [closeablePooler.queue, closeablePooler.chan, h, Entries.lookup,
    NewAddressFromString, Address.String]

/-- Visiting the keys of a well-formed pool in the order of its entries: the
map ends up without entries and the handles closed are the idle ones, queue
after queue. -/
theorem rangeClear_keys (m : Entries) (c : closeablePooler) (he : c.entries = m)
    (hwf : WF c) :
    (rangeClear (Entries.keys m) c).entries = [] ∧
      (rangeClear (Entries.keys m) c).trace =
        c.trace ++ ((m.map (fun p => p.2.buf)).flatten).map Event.clientClose := by
  induction m generalizing c with
  | nil => simp [Entries.keys, rangeClear, he]
  | cons p m ih =>
    obtain ⟨k, ch⟩ := p
    have hnd := hwf.1
    rw [he] at hnd
    have hk : k ∉ Entries.keys m := by
      simp only [Entries.keys, List.map_cons, List.nodup_cons] at hnd
      exact hnd.1
    have he1 : (c.Clear (NewAddressFromString k)).entries = m := by
      rw [Clear_entries c _ hwf, he]
      have : Entries.delete k ((k, ch) :: m) = Entries.delete k m := by
        simp [Entries.delete]
      simp only [NewAddressFromString, Address.String]
      rw [this, Entries.delete_of_not_mem k m hk]
    have := ih _ he1 (WF_Clear c _ hwf)
    simp only [Entries.keys, List.map_cons, rangeClear] at this ⊢
    refine ⟨this.1, ?_⟩
    rw [this.2, Clear_trace, queue_head c k ch m he]
    simp

theorem Close_snd_entries (c : closeablePooler) (hwf : WF c) : c.Close.2.entries = [] :=
  (rangeClear_keys c.entries c rfl hwf).1

theorem Close_snd_trace (c : closeablePooler) (hwf : WF c) :
    c.Close.2.trace = c.trace ++ (allIdle c).map Event.clientClose :=
  (rangeClear_keys c.entries c rfl hwf).2

theorem Close_of_no_entries (c : closeablePooler) (h : c.entries = []) :
    c.Close = (none, c) := by
  simp [closeablePooler.Close, h, Entries.keys, rangeClear]

theorem mem_List_iff (c : closeablePooler) (b : Address) :
    b ∈ c.List ↔ ∃ k ∈ c.entries.keys, b = NewAddressFromString k := by
  simp only [closeablePooler.List, List.mem_map]
  constructor
  · rintro ⟨k, hk, rfl⟩; exact ⟨k, hk, rfl⟩
  · rintro ⟨k, hk, rfl⟩; exact ⟨k, hk, rfl⟩

theorem exists_List_of_chan (c : closeablePooler) (a : Address) (ch : Chan)
    (h : c.chan a.String = some ch) : ∃ b ∈ c.List, b.String = a.String := by
  refine ⟨NewAddressFromString a.String, ?_, rfl⟩
  rw [mem_List_iff]
  refine ⟨a.String, ?_, rfl⟩
  by_contra hk
  rw [← Entries.lookup_eq_none_iff] at hk
  unfold closeablePooler.chan at h
  rw [hk] at h
  cases h

/-! ## `Close` in any visiting order -/

/-- The idle handles of a list of entries, queue after queue. -/
theorem idle_split (k : String) (m : Entries) (hnd : (Entries.keys m).Nodup) :
    List.Perm
      ((match Entries.lookup k m with
          | some ch => ch.buf
          | none => []) ++ ((Entries.delete k m).map (fun p => p.2.buf)).flatten)
      ((m.map (fun p => p.2.buf)).flatten) := by
  induction m with
  | nil => simp [Entries.lookup, Entries.delete]
  | cons p m ih =>
    obtain ⟨k1, v1⟩ := p
    simp only [Entries.keys, List.map_cons, List.nodup_cons] at hnd
    by_cases h1 : k1 = k
    · subst h1
      have hd : Entries.delete k1 ((k1, v1) :: m) = m := by
        have : Entries.delete k1 ((k1, v1) :: m) = Entries.delete k1 m := by
          simp [Entries.delete]
        rw [this, Entries.delete_of_not_mem k1 m hnd.1]
      rw [hd]
      simp [Entries.lookup]
    · have hd : Entries.delete k ((k1, v1) :: m) = (k1, v1) :: Entries.delete k m := by
        simp [Entries.delete, h1]
      rw [hd]
      simp only [Entries.lookup, h1, if_false, List.map_cons, List.flatten_cons]
      exact (List.perm_append_comm_assoc _ _ _).trans ((ih hnd.2).append_left _)

/-- Visiting, in any order, a list of keys that covers the keys of a
well-formed pool: the map ends up without entries and the handles closed are
the idle ones, each as often as it was queued. -/
theorem rangeClear_cover (ks : List String) (c : closeablePooler) (hwf : WF c)
    (hcov : ∀ k ∈ c.entries.keys, k ∈ ks) :
    (rangeClear ks c).entries = [] ∧
      ∃ closed : List Client,
        (rangeClear ks c).trace = c.trace ++ closed.map Event.clientClose ∧
        closed.Perm (allIdle c) := by
  induction ks generalizing c with
  | nil =>
    have he : c.entries = [] := by
      cases h : c.entries with
      | nil => rfl
      | cons p m =>
        have := hcov p.1 (by rw [h]; simp [Entries.keys])
        simp at this
    exact ⟨he, [], by simp [rangeClear], by simp [allIdle, he]⟩
  | cons k ks ih =>
    have hwf1 := WF_Clear c (NewAddressFromString k) hwf
    have he1 : (c.Clear (NewAddressFromString k)).entries = c.entries.delete k :=
      Clear_entries c _ hwf
    have hcov1 : ∀ k1 ∈ (c.Clear (NewAddressFromString k)).entries.keys, k1 ∈ ks := by
      intro k1 hk1
      rw [he1] at hk1
      simp only [Entries.keys, List.mem_map] at hk1
      obtain ⟨p, hp, rfl⟩ := hk1
      obtain ⟨hp1, hp2⟩ := Entries.mem_delete k c.entries p hp
      have := hcov p.1 (List.mem_map_of_mem _ hp1)
      simp only [List.mem_cons] at this
      rcases this with h | h
      · exact absurd h hp2
      · exact h
    obtain ⟨h1, closed, h2, h3⟩ := ih _ hwf1 hcov1
    refine ⟨h1, c.queue (NewAddressFromString k) ++ closed, ?_, ?_⟩
    · simp only [rangeClear]
      rw [h2, Clear_trace]; simp
    · have := idle_split k c.entries hwf.1
      refine List.Perm.trans ?_ this
      have h4 : allIdle (c.Clear (NewAddressFromString k))
          = ((Entries.delete k c.entries).map (fun p => p.2.buf)).flatten := by
        simp only [allIdle]; rw [he1]
      rw [h4] at h3
      exact h3.append_left _

theorem WF_NewCloseablePooler (d : Dialer) (max : Int) (chanLimit : Nat) (rpc : Rpc)
    (trace : List Event) : WF (NewCloseablePooler d max chanLimit rpc trace) := by
  simp [WF, NewCloseablePooler, closeablePooler.entries, Entries.keys]

/-! ## The claims -/

theorem Bounded_of_WF (c : closeablePooler) (hmax : 0 ≤ c.max) (hwf : WF c) : Bounded c := by
  intro p hp
  have := hwf.2 p hp
  omega

theorem Init_max (c c1 : closeablePooler) (a : Address) (h : c.Init a = .ok c1) :
    c1.max = c.max := by
  obtain ⟨hmax, hlim, hp⟩ := Init_ok_inv c c1 a h
  obtain ⟨c2, h2, -, -, hm, -, -, -⟩ := Init_of_alloc c a hmax hlim hp
  rw [h2] at h; cases h; exact hm

theorem sendOrClose_max (c c1 : closeablePooler) (a : Address) (cl : Client)
    (r : Option Error) (h : c.sendOrClose a cl = .ok (r, c1)) : c1.max = c.max := by
  unfold closeablePooler.sendOrClose at h
  simp only at h
  split at h
  · simp at h; rw [← h.2]
  · split at h
    · simp at h; rw [← h.2]
    · cases h
    · simp at h; rw [← h.2]

theorem Return_max (c c1 : closeablePooler) (a : Address) (cl : Client)
    (r : Option Error) (h : c.Return a cl = .ok (r, c1)) : c1.max = c.max := by
  cases hch : c.chan a.String with
  | some ch =>
    rw [Return_of_present c a cl ch hch] at h
    exact sendOrClose_max c c1 a cl r h
  | none =>
    rw [Return_of_absent c a cl hch] at h
    cases hi : c.Init a with
    | error f => rw [hi] at h; cases h
    | ok c2 =>
      rw [hi] at h
      rw [sendOrClose_max c2 c1 a cl r h, Init_max c c2 a hi]

theorem Aquire_max (c : closeablePooler) (a : Address) : (c.Aquire a).2.max = c.max := by
  cases hq : c.queue a with
  | nil => rw [Aquire_miss c a hq]
  | cons h rest =>
    unfold closeablePooler.queue at hq
    cases hch : c.chan a.String with
    | none => rw [hch] at hq; cases hq
    | some ch =>
      rw [hch] at hq
      simp only at hq
      rw [Aquire_hit c a ch h rest hch hq]

theorem Call_max (c c1 : closeablePooler) (a : Address) (m : String) (args : Args)
    (r : Option Error) (h : c.Call a m args = .ok (r, c1)) : c1.max = c.max := by
  unfold closeablePooler.Call at h
  have hA := Aquire_max c a
  cases hq : c.Aquire a with
  | mk res c2 =>
    rw [hq] at h hA
    cases res with
    | error err =>
      simp at h
      rw [← h.2]; exact hA
    | ok p =>
      obtain ⟨cl, rel⟩ := p
      simp only at h
      split at h
      · cases h
      · rename_i r3 c3 hrun
        simp at h
        rw [← h.2, Return_max _ c3 rel.addr rel.cl r3 hrun]
        exact hA

theorem WF_step (op : Op) (c c1 : closeablePooler) (hwf : WF c) (h : step op c = .ok c1) :
    WF c1 ∧ c1.max = c.max := by
  cases op with
  | Init a => exact ⟨WF_Init c c1 a hwf h, Init_max c c1 a h⟩
  | Clear a =>
    simp only [step, Except.ok.injEq] at h
    subst h; exact ⟨WF_Clear c a hwf, Clear_max c a⟩
  | Aquire a =>
    simp only [step, Except.ok.injEq] at h
    subst h; exact ⟨WF_Aquire c a hwf, Aquire_max c a⟩
  | Return a cl =>
    simp only [step] at h
    cases hr : c.Return a cl with
    | error f => rw [hr] at h; cases h
    | ok p =>
      obtain ⟨r, c2⟩ := p
      rw [hr] at h
      simp only [Except.map, Except.ok.injEq] at h
      subst h
      exact ⟨WF_Return c c2 a cl r hwf hr, Return_max c c2 a cl r hr⟩
  | Call a m args =>
    simp only [step] at h
    cases hr : c.Call a m args with
    | error f => rw [hr] at h; cases h
    | ok p =>
      obtain ⟨r, c2⟩ := p
      rw [hr] at h
      simp only [Except.map, Except.ok.injEq] at h
      subst h
      exact ⟨WF_Call c c2 a m args r hwf hr, Call_max c c2 a m args r hr⟩
  | List =>
    simp only [step, Except.ok.injEq] at h
    subst h; exact ⟨hwf, rfl⟩
  | Close =>
    simp only [step, Except.ok.injEq] at h
    subst h; exact ⟨WF_rangeClear _ c hwf, rangeClear_max _ c⟩


theorem chan_of_entries_eq (c c1 : closeablePooler) (k : String)
    (h : c1.entries = c.entries) : c1.chan k = c.chan k := by
  unfold closeablePooler.chan; rw [h]

theorem Init_chan_same (c c1 : closeablePooler) (a : Address) (h : c.Init a = .ok c1) :
    c1.chan a.String = some (Chan.make c.max.toNat) := by
  obtain ⟨hmax, hlim, hp⟩ := Init_ok_inv c c1 a h
  obtain ⟨c2, h2, he, -, -, -, -, -⟩ := Init_of_alloc c a hmax hlim hp
  rw [h2] at h; cases h
  unfold closeablePooler.chan
  rw [he]; exact Entries.lookup_store_same _ _ _

theorem Init_chan_other (c c1 : closeablePooler) (a : Address) (k : String)
    (h : c.Init a = .ok c1) (hk : k ≠ a.String) : c1.chan k = c.chan k := by
  obtain ⟨hmax, hlim, hp⟩ := Init_ok_inv c c1 a h
  obtain ⟨c2, h2, he, -, -, -, -, -⟩ := Init_of_alloc c a hmax hlim hp
  rw [h2] at h; cases h
  rw [← Clear_chan_other c a k hk]
  unfold closeablePooler.chan
  rw [he]; exact Entries.lookup_store_other _ _ _ _ hk

theorem Init_fields (c c1 : closeablePooler) (a : Address) (h : c.Init a = .ok c1) :
    c1.rpc = c.rpc ∧ c1.dialer = c.dialer ∧
      c1.trace = c.trace ++ (c.queue a).map Event.clientClose := by
  obtain ⟨hmax, hlim, hp⟩ := Init_ok_inv c c1 a h
  obtain ⟨c2, h2, -, -, -, hd, hr, ht⟩ := Init_of_alloc c a hmax hlim hp
  rw [h2] at h; cases h
  exact ⟨hr, hd, ht⟩

theorem queue_congr (c c1 : closeablePooler) (a b : Address)
    (h : c1.chan b.String = c.chan a.String) : c1.queue b = c.queue a := by
  unfold closeablePooler.queue; rw [h]

theorem queue_of_absent (c : closeablePooler) (a : Address) (h : c.chan a.String = none) :
    c.queue a = [] := by
  simp [closeablePooler.queue, h]

/-- The effect of `Return` of a handle to a queue that already holds `max` handles. -/
theorem Return_full (c c1 : closeablePooler) (a : Address) (h : Client) (r : Option Error)
    (hwf : WF c) (hfull : (c.idle a : Int) = c.max) (hr : c.Return a h = .ok (r, c1)) :
    (∀ b, c1.queue b = c.queue b) ∧ c1.trace = c.trace ++ [Event.clientClose h] ∧
      r = c.rpc.Close c.trace h := by
  cases hch : c.chan a.String with
  | some ch =>
    have hw := chan_open_of_WF c _ ch hwf hch
    have hlen : ¬ ch.buf.length < ch.cap := by
      simp only [closeablePooler.idle, closeablePooler.queue, hch] at hfull
      omega
    rw [Return_of_present c a h ch hch, sendOrClose_full c a h ch hch hw.2.2 hlen] at hr
    simp only [Except.ok.injEq, Prod.mk.injEq] at hr
    obtain ⟨rfl, rfl⟩ := hr
    exact ⟨fun b => rfl, rfl, rfl⟩
  | none =>
    rw [Return_of_absent c a h hch] at hr
    cases hi : c.Init a with
    | error f => rw [hi] at hr; cases hr
    | ok c2 =>
      rw [hi] at hr
      simp only at hr
      have hsame := Init_chan_same c c2 a hi
      obtain ⟨hrpc, -, htr⟩ := Init_fields c c2 a hi
      have hq0 := queue_of_absent c a hch
      have hmax0 : c.max.toNat = 0 := by
        simp only [closeablePooler.idle, hq0, List.length_nil] at hfull
        omega
      have hlen : ¬ (Chan.make c.max.toNat).buf.length < (Chan.make c.max.toNat).cap := by
        simp [Chan.make, hmax0]
      rw [sendOrClose_full c2 a h _ hsame rfl hlen] at hr
      simp only [Except.ok.injEq, Prod.mk.injEq] at hr
      obtain ⟨rfl, rfl⟩ := hr
      rw [hq0] at htr
      simp only [List.map_nil, List.append_nil] at htr
      refine ⟨?_, by simp [htr], by rw [hrpc, htr]⟩
      intro b
      by_cases hb : b.String = a.String
      · have h1 : c.queue b = [] := by
          apply queue_of_absent; rw [hb]; exact hch
        rw [h1]
        have h2 : c2.queue b = [] := by
          simp only [closeablePooler.queue]
          rw [hb, hsame]; rfl
        exact h2
      · exact queue_congr c c2 b b (Init_chan_other c c2 a _ hi hb)

/-- C1 (bounded idle queue).  On a pool state that satisfies the invariant of the
methods (the keys distinct, every stored channel open, made with capacity `max` and never
holding more than its capacity, so that every queue holds at most `max` idle
handles) with `max ≥ 0`, every operation that completes (`Init`, `Clear`,
`Aquire`, `Return`, `Call`, `List`, `Close`, with any address and any handle)
leaves such a state again, with the same `max` and every queue holding at most
`max` idle handles.  A handle passed to `Return` when the queue of the address
already holds `max` handles is closed (the one call made is its `Close`, whose
result is returned) and is not queued: every queue is as before. -/
theorem bounded_idle_queue (c : closeablePooler) (hmax : 0 ≤ c.max) (hwf : WF c) :
    Bounded c ∧
    (∀ op c1, step op c = .ok c1 → WF c1 ∧ c1.max = c.max ∧ Bounded c1) ∧
    (∀ a h r c1, (c.idle a : Int) = c.max → c.Return a h = .ok (r, c1) →
      (∀ b, c1.queue b = c.queue b) ∧ c1.trace = c.trace ++ [Event.clientClose h] ∧
        r = c.rpc.Close c.trace h) := by
  refine ⟨Bounded_of_WF c hmax hwf, ?_, ?_⟩
  · intro op c1 h
    obtain ⟨h1, h2⟩ := WF_step op c c1 hwf h
    exact ⟨h1, h2, Bounded_of_WF c1 (by rw [h2]; exact hmax) h1⟩
  · intro a h r c1 hfull hr
    exact Return_full c c1 a h r hwf hfull hr

/-- Witness of C1: the pool `exPool` (`max = 2`, queue of `x` full): after
`Return(x, h)` every queue is bounded, and the handle was closed, not queued. -/
theorem bounded_idle_queue_witness :
    (0 : Int) ≤ exPool.max ∧ WF exPool ∧
    (∀ c1, step (Op.Return (NewAddressFromString "x") ⟨14⟩) exPool = .ok c1 → Bounded c1) ∧
    (∀ r c1, exPool.Return (NewAddressFromString "x") ⟨14⟩ = .ok (r, c1) →
      c1.queue (NewAddressFromString "x") = [⟨11⟩, ⟨12⟩] ∧
        c1.trace = [Event.clientClose ⟨14⟩]) :=
  ⟨by decide, by decide,
    fun c1 h => ((bounded_idle_queue exPool (by decide) (by decide)).2.1 _ c1 h).2.2,
    fun r c1 h =>
      have := (bounded_idle_queue exPool (by decide) (by decide)).2.2
        (NewAddressFromString "x") ⟨14⟩ r c1 (by decide) h
      ⟨this.1 _, this.2.1⟩⟩


theorem Init_on_new_pooler_fault (d : Dialer) (max : Int) (chanLimit : Nat) (rpc : Rpc)
    (trace : List Event) (a : Address) :
    (NewCloseablePooler d max chanLimit rpc trace).Init a =
      .error (if max < 0 ∨ ((min chanLimit maxChanSize : Nat) : Int) < max
        then Fault.makechanSize else Fault.nilMapAssign) := by
  have hc : (NewCloseablePooler d max chanLimit rpc trace).Clear a
      = NewCloseablePooler d max chanLimit rpc trace :=
    Clear_of_absent _ a (chan_eq_none_of_pool_none _ _ rfl)
  unfold closeablePooler.Init
  simp only [hc]
  change (if max < 0 ∨ ((min chanLimit maxChanSize : Nat) : Int) < max then _ else _) = _
  by_cases h : max < 0 ∨ ((min chanLimit maxChanSize : Nat) : Int) < max
  · rw [if_pos h, if_pos h]
  · rw [if_neg h, if_neg h]; rfl

/-- C2 (the code at the failing input).  `Init` on the pool returned by
`NewCloseablePooler` never completes: `pool` is the nil map, so for every
`max ≥ 0` of which a channel can be made the assignment
`c.pool[addr.String()] = ...` panics (and for any other `max` the `make` before
it does). -/
theorem Init_on_new_pooler_panics (d : Dialer) (max : Int) (chanLimit : Nat) (rpc : Rpc)
    (trace : List Event) (a : Address) :
    (NewCloseablePooler d max chanLimit rpc trace).Init a =
      .error (if max < 0 ∨ ((min chanLimit maxChanSize : Nat) : Int) < max
        then Fault.makechanSize else Fault.nilMapAssign) := by
  have hc : (NewCloseablePooler d max chanLimit rpc trace).Clear a
      = NewCloseablePooler d max chanLimit rpc trace :=
    Clear_of_absent _ a (chan_eq_none_of_pool_none _ _ rfl)
  unfold closeablePooler.Init
  simp only [hc]
  change (if max < 0 ∨ ((min chanLimit maxChanSize : Nat) : Int) < max then _ else _) = _
  by_cases h : max < 0 ∨ ((min chanLimit maxChanSize : Nat) : Int) < max
  · rw [if_pos h, if_pos h]
  · rw [if_neg h, if_neg h]; rfl

/-- The same defect met by `Return`: on the pool returned by
`NewCloseablePooler` there is no channel for any address, so `Return` calls
`Init`, which panics. -/
theorem Return_on_new_pooler_panics (d : Dialer) (max : Int) (chanLimit : Nat)
    (rpc : Rpc) (trace : List Event) (a : Address) (h : Client) :
    (NewCloseablePooler d max chanLimit rpc trace).Return a h =
      .error (if max < 0 ∨ ((min chanLimit maxChanSize : Nat) : Int) < max
        then Fault.makechanSize else Fault.nilMapAssign) := by
  rw [Return_of_absent _ a h (chan_eq_none_of_pool_none _ _ rfl),
    Init_on_new_pooler_fault]

theorem chan_after_store (c : closeablePooler) (k : String) (v ch : Chan)
    (hch : c.chan k = some ch) :
    ({ c with pool := c.pool.map (Entries.store k v) } : closeablePooler).chan k = some v := by
  unfold closeablePooler.chan
  rw [entries_store c k v c.trace (pool_ne_none_of_chan c k ch hch)]
  exact Entries.lookup_store_same _ _ _

theorem chan_after_store_other (c : closeablePooler) (k k1 : String) (v ch : Chan)
    (hch : c.chan k = some ch) (hk : k1 ≠ k) :
    ({ c with pool := c.pool.map (Entries.store k v) } : closeablePooler).chan k1
      = c.chan k1 := by
  unfold closeablePooler.chan
  rw [entries_store c k v c.trace (pool_ne_none_of_chan c k ch hch)]
  exact Entries.lookup_store_other _ _ _ _ hk

theorem count_clientClose_map (x : Client) (q : List Client) :
    (q.map Event.clientClose).count (Event.clientClose x) = q.count x := by
  induction q with
  | nil => rfl
  | cons y q ih =>
    by_cases hy : y = x
    · subst hy; simp [ih]
    · have : ¬ Event.clientClose y = Event.clientClose x := fun e => hy (by cases e; rfl)
      simp only [List.map_cons]
      rw [List.count_cons, List.count_cons, ih]
      simp [hy, this]

/-- Returning, to an open channel, as many handles as it has room for and then
one more: the first ones are queued in order, the last one is closed. -/
theorem returnAll_overflow (a : Address) (h : Client) (xs : List Client)
    (c : closeablePooler) (ch : Chan) (hch : c.chan a.String = some ch)
    (ho : ch.closed = false) (hlen : ch.buf.length + xs.length = ch.cap) :
    ∃ c1, returnAll a (xs ++ [h]) c = .ok c1 ∧
      c1.chan a.String = some { ch with buf := ch.buf ++ xs } ∧
      c1.trace = c.trace ++ [Event.clientClose h] := by
  induction xs generalizing c ch with
  | nil =>
    have hfull : ¬ ch.buf.length < ch.cap := by simp at hlen; omega
    refine ⟨{ c with trace := c.trace ++ [Event.clientClose h] }, ?_, ?_, rfl⟩
    · simp [returnAll, Return_of_present c a h ch hch, sendOrClose_full c a h ch hch ho hfull]
    · simpa [closeablePooler.chan, closeablePooler.entries] using hch
  | cons x xs ih =>
    have hroom : ch.buf.length < ch.cap := by simp at hlen; omega
    have hstep := sendOrClose_room c a x ch hch ho hroom
    have hch1 := chan_after_store c a.String { ch with buf := ch.buf ++ [x] } ch hch
    obtain ⟨c1, h1, h2, h3⟩ := ih _ { ch with buf := ch.buf ++ [x] } hch1 ho
      (by simp at hlen ⊢; omega)
    refine ⟨c1, ?_, ?_, ?_⟩
    · simp only [List.cons_append, returnAll, Return_of_present c a x ch hch, hstep]
      exact h1
    · simpa using h2
    · exact h3

/-- C3 as amended (return overflow within the size that `make` accepts).  On a
pool with an allocated map and `max = n ≥ 0`, with `n` not above the largest
size of which the run time can make a channel,
`Init(a)` followed by `Return(a, h_1)`, ..., `Return(a, h_n)`, `Return(a, h)`
for distinct handles completes; afterwards the queue of `a` holds exactly
`h_1 .. h_n`, `h` is not queued, and the calls made by the `Return`s are one
`Close` of `h` and nothing else (so none of `h_1 .. h_n` was closed).  The
only calls before them are those of `Init`: a `Close` of each handle that was
idle for `a` when `Init` began.  Hence over the whole sequence a handle that was
not idle for `a` at the start is closed once if it is `h` and never
otherwise. -/
theorem return_overflow (c : closeablePooler) (a : Address) (n : Nat) (hs : List Client)
    (h : Client) (hp : c.pool ≠ none) (hmax : c.max = (n : Int)) (hlim : n ≤ c.makeLimit)
    (hlen : hs.length = n) (hnd : (hs ++ [h]).Nodup) :
    ∃ c0 c1, c.Init a = .ok c0 ∧ returnAll a (hs ++ [h]) c0 = .ok c1 ∧
      c1.queue a = hs ∧ c1.idle a = n ∧ h ∉ c1.queue a ∧
      c1.trace = c0.trace ++ [Event.clientClose h] ∧
      c0.trace = c.trace ++ (c.queue a).map Event.clientClose ∧
      ∀ x, x ∉ c.queue a →
        (c1.trace.drop c.trace.length).count (Event.clientClose x) = if x = h then 1 else 0 := by
  obtain ⟨c0, h0, -, -, -, -, -, ht⟩ := Init_of_alloc c a (by omega) (by omega) hp
  have hch := Init_chan_same c c0 a h0
  obtain ⟨c1, h1, h2, h3⟩ := returnAll_overflow a h hs c0 _ hch rfl
    (by simp [Chan.make, hmax, hlen])
  have hq : c1.queue a = hs := by
    simp [closeablePooler.queue, h2, Chan.make]
  refine ⟨c0, c1, h0, h1, hq, ?_, ?_, h3, ht, ?_⟩
  · simp [closeablePooler.idle, hq, hlen]
  · rw [hq]
    intro hmem
    have := List.nodup_append.1 hnd
    exact this.2.2 hmem (by simp)
  · intro x hx
    rw [h3, ht, List.append_assoc, List.drop_left, List.count_append,
      count_clientClose_map, List.count_eq_zero_of_not_mem hx]
    by_cases hxh : x = h
    · subst hxh; simp
    · have : ¬ h = x := fun e => hxh e.symm
      simp [hxh, this]

/-- Witness of C3 as amended, the scenario of the specification: `max = 2`, `Init(addr)`,
`Return(addr, h1)`, `Return(addr, h2)`, `Return(addr, h3)` leaves `h1, h2` idle
and `h3` closed. -/
theorem return_overflow_witness :
    ∃ c0 c1, exEmpty.Init (NewAddressFromString "addr") = .ok c0 ∧
      returnAll (NewAddressFromString "addr") ([⟨1⟩, ⟨2⟩] ++ [⟨3⟩]) c0 = .ok c1 ∧
      c1.queue (NewAddressFromString "addr") = [⟨1⟩, ⟨2⟩] ∧
      c1.idle (NewAddressFromString "addr") = 2 ∧
      (⟨3⟩ : Client) ∉ c1.queue (NewAddressFromString "addr") ∧
      c1.trace = c0.trace ++ [Event.clientClose ⟨3⟩] ∧
      c0.trace = exEmpty.trace ++
        (exEmpty.queue (NewAddressFromString "addr")).map Event.clientClose ∧
      ∀ x, x ∉ exEmpty.queue (NewAddressFromString "addr") →
        (c1.trace.drop exEmpty.trace.length).count (Event.clientClose x) =
          if x = ⟨3⟩ then 1 else 0 :=
  return_overflow exEmpty (NewAddressFromString "addr") 2 [⟨1⟩, ⟨2⟩] ⟨3⟩
    (by decide) (by decide) (by decide) (by decide) (by decide)

/-- C3 as stated fails.  The map of `exHuge` is allocated and `max = 2 ^ 62 ≥ 1`,
beyond the largest channel the run time accepts: `Init(a)` panics in `make`
(`makechan: size out of range`), so the sequence of `Init` and `Return`s does
not complete and no handle is queued. -/
theorem return_overflow_counterexample :
    exHuge.pool = some [] ∧ (1 : Int) ≤ exHuge.max ∧
    exHuge.Init (NewAddressFromString "addr") = .error Fault.makechanSize ∧
    exHuge.queue (NewAddressFromString "addr") = [] :=
  ⟨rfl, by decide, rfl, by decide⟩


/-- C4 (`Aquire` hit and miss).  When the queue of `a` holds an idle handle,
`Aquire(a)` returns the oldest handle of that queue with its release function
and a nil error, makes no outside call (the dialer is not invoked), leaves the
rest of the queue (the idle count drops by one) and leaves every other entry as
it was.  When `a` has no entry or its queue is empty, the one outside call is a
`Dial` of `a`, the map and all queues are unchanged, and on dial success the
result is the new client built on the dialed connection. -/
theorem aquire_hit_and_miss (c : closeablePooler) (a : Address) :
    (c.queue a ≠ [] →
      ∃ h c1, c.Aquire a = (.ok (h, ⟨a, h⟩), c1) ∧ c.queue a = h :: c1.queue a ∧
        c1.idle a + 1 = c.idle a ∧ c1.trace = c.trace ∧
        ∀ b : Address, b.String ≠ a.String → c1.chan b.String = c.chan b.String) ∧
    (c.chan a.String = none ∨ c.queue a = [] →
      (c.Aquire a).2.trace = c.trace ++ [Event.dial a] ∧
      (c.Aquire a).2.pool = c.pool ∧
      ∀ conn, c.dialer c.trace a = .ok conn →
        (c.Aquire a).1 = .ok (NewClient conn, ⟨a, NewClient conn⟩)) := by
  constructor
  · intro hne
    cases hch : c.chan a.String with
    | none => exact absurd (queue_of_absent c a hch) hne
    | some ch =>
      have hq : c.queue a = ch.buf := by simp [closeablePooler.queue, hch]
      cases hb : ch.buf with
      | nil => rw [hq, hb] at hne; exact absurd rfl hne
      | cons h rest =>
        have hs := chan_after_store c a.String { ch with buf := rest } ch hch
        refine ⟨h, _, Aquire_hit c a ch h rest hch hb, ?_, ?_, rfl, ?_⟩
        · rw [hq, hb]; simp only [closeablePooler.queue]; rw [hs]
        · simp only [closeablePooler.idle, closeablePooler.queue]; rw [hs, hch]; simp [hb]
        · intro b hb1
          exact chan_after_store_other c a.String b.String _ ch hch hb1
  · intro hmiss
    have hq : c.queue a = [] := by
      rcases hmiss with h | h
      · exact queue_of_absent c a h
      · exact h
    rw [Aquire_miss c a hq]
    refine ⟨rfl, rfl, ?_⟩
    intro conn hconn
    simp [hconn]

/-- Witness of C4: in `exPool` the address `y` has the idle handle 13, which
`Aquire(y)` returns without dialing; for the address `z`, which has no entry, the
dialer is invoked once and the map is unchanged. -/
theorem aquire_hit_and_miss_witness :
    exPool.queue (NewAddressFromString "y") ≠ [] ∧
    (∃ h c1, exPool.Aquire (NewAddressFromString "y")
        = (.ok (h, ⟨NewAddressFromString "y", h⟩), c1) ∧
      exPool.queue (NewAddressFromString "y") = h :: c1.queue (NewAddressFromString "y") ∧
      c1.idle (NewAddressFromString "y") + 1 = exPool.idle (NewAddressFromString "y") ∧
      c1.trace = exPool.trace ∧
      ∀ b : Address, b.String ≠ (NewAddressFromString "y").String →
        c1.chan b.String = exPool.chan b.String) ∧
    exPool.chan (NewAddressFromString "z").String = none ∧
    (exPool.Aquire (NewAddressFromString "z")).2.trace
      = exPool.trace ++ [Event.dial (NewAddressFromString "z")] ∧
    (exPool.Aquire (NewAddressFromString "z")).2.pool = exPool.pool :=
  ⟨by decide,
    (aquire_hit_and_miss exPool (NewAddressFromString "y")).1 (by decide),
    by decide,
    ((aquire_hit_and_miss exPool (NewAddressFromString "z")).2 (Or.inl (by decide))).1,
    ((aquire_hit_and_miss exPool (NewAddressFromString "z")).2 (Or.inl (by decide))).2.1⟩

/-- C5 as amended (`Return`/`Aquire` round trip on an empty queue).  On a pool
state that satisfies the invariant of the methods (the keys distinct, every
stored channel open, of capacity `max` and holding no more than its capacity),
with an allocated map and `max ≥ 1`, for an address `a` without idle handles
(an entry with an empty queue, or no entry and a `max` not above the largest
size of which the run time can make a channel): `Return(a, h)` queues `h` with
a nil error, and the `Aquire(a)` that follows yields `h` back, with its release
function, a nil error and no outside call. -/
theorem return_then_aquire (c : closeablePooler) (a : Address) (h : Client) (hwf : WF c)
    (hmax : 1 ≤ c.max) (hp : c.pool ≠ none) (hq : c.queue a = [])
    (hlim : c.chan a.String = none → c.max ≤ (c.makeLimit : Int)) :
    ∃ c1 c2, c.Return a h = .ok (none, c1) ∧ c1.queue a = [h] ∧
      c1.Aquire a = (.ok (h, ⟨a, h⟩), c2) ∧ c2.queue a = [] ∧ c2.trace = c.trace := by
  have key : ∀ (c0 : closeablePooler) (ch : Chan), c0.chan a.String = some ch →
      ch.closed = false → ch.buf = [] → 1 ≤ ch.cap →
      ∃ c1 c2, c0.sendOrClose a h = .ok (none, c1) ∧ c1.queue a = [h] ∧
        c1.Aquire a = (.ok (h, ⟨a, h⟩), c2) ∧ c2.queue a = [] ∧ c2.trace = c0.trace := by
    intro c0 ch hch ho hb hcap
    have hroom : ch.buf.length < ch.cap := by rw [hb]; simpa using hcap
    have h1 := chan_after_store c0 a.String { ch with buf := ch.buf ++ [h] } ch hch
    have h2 := Aquire_hit _ a _ h [] h1 (by simp [hb])
    refine ⟨_, _, sendOrClose_room c0 a h ch hch ho hroom, ?_, h2, ?_, rfl⟩
    · simp only [closeablePooler.queue]
      rw [h1]; simp [hb]
    · simp only [closeablePooler.queue]
      rw [chan_after_store _ a.String _ _ h1]
  cases hch : c.chan a.String with
  | some ch =>
    have hw := chan_open_of_WF c _ ch hwf hch
    have hb : ch.buf = [] := by simpa [closeablePooler.queue, hch] using hq
    rw [Return_of_present c a h ch hch]
    exact key c ch hch hw.2.2 hb (by omega)
  | none =>
    obtain ⟨c0, h0, -, -, -, -, -, ht⟩ := Init_of_alloc c a (by omega) (hlim hch) hp
    rw [Return_of_absent c a h hch, h0]
    simp only
    obtain ⟨c1, c2, k1, k2, k3, k4, k5⟩ := key c0 _ (Init_chan_same c c0 a h0) rfl rfl
      (by simp only [Chan.make]; omega)
    refine ⟨c1, c2, k1, k2, k3, k4, ?_⟩
    rw [k5, ht, hq]; simp

/-- Witness of C5 as amended: the address `z` has no entry in `exPool`. -/
theorem return_then_aquire_witness :
    WF exPool ∧ exPool.queue (NewAddressFromString "z") = [] ∧
    ∃ c1 c2, exPool.Return (NewAddressFromString "z") ⟨14⟩ = .ok (none, c1) ∧
      c1.queue (NewAddressFromString "z") = [⟨14⟩] ∧
      c1.Aquire (NewAddressFromString "z")
        = (.ok (⟨14⟩, ⟨NewAddressFromString "z", ⟨14⟩⟩), c2) ∧
      c2.queue (NewAddressFromString "z") = [] ∧ c2.trace = exPool.trace :=
  ⟨by decide, by decide,
    return_then_aquire exPool (NewAddressFromString "z") ⟨14⟩ (by decide) (by decide)
      (by decide) (by decide) (fun _ => by decide)⟩

/-- C5 as stated fails.  In `exPool` (`max = 2`) the queue of `y` holds the
handle 13: `Return(y, 14)` then `Aquire(y)` yields 13, not 14.  In `exZero`
(`max = 0`) `Return(a, 14)` closes the handle, and the `Aquire(a)` that follows
dials and yields a new client.  In `exHuge` (`max = 2 ^ 62`, no entry for `a`)
`Return(a, 14)` panics in the `make` of `Init`. -/
theorem return_then_aquire_counterexample :
    (WF exPool ∧ ∃ c1 c2,
      exPool.Return (NewAddressFromString "y") ⟨14⟩ = .ok (none, c1) ∧
      c1.Aquire (NewAddressFromString "y")
        = (.ok (⟨13⟩, ⟨NewAddressFromString "y", ⟨13⟩⟩), c2) ∧
      (⟨13⟩ : Client) ≠ ⟨14⟩) ∧
    (WF exZero ∧ ∃ c1 c2,
      exZero.Return (NewAddressFromString "a") ⟨14⟩ = .ok (none, c1) ∧
      c1.trace = [Event.clientClose ⟨14⟩] ∧
      c1.Aquire (NewAddressFromString "a")
        = (.ok (⟨1⟩, ⟨NewAddressFromString "a", ⟨1⟩⟩), c2) ∧
      c2.trace = [Event.clientClose ⟨14⟩, Event.dial (NewAddressFromString "a")] ∧
      (⟨1⟩ : Client) ≠ ⟨14⟩) ∧
    (WF exHuge ∧ exHuge.pool = some [] ∧ (1 : Int) ≤ exHuge.max ∧
      exHuge.Return (NewAddressFromString "a") ⟨14⟩ = .error Fault.makechanSize) :=
  ⟨⟨by decide, _, _, rfl, rfl, by decide⟩,
   ⟨by decide, _, _, rfl, rfl, rfl, rfl, by decide⟩,
   ⟨by decide, rfl, by decide, rfl⟩⟩


/-- C6 (`Clear`).  On a pool state that satisfies the invariant of the methods,
after `Clear(a)` no address of `List()` has the string form of `a`; the outside
calls made are one `Close` for each handle that was idle in the queue of `a`,
oldest first, and nothing else, so that a handle is closed as many times as it
was queued: exactly once each when the queued handles are distinct; the channel
stored for every address with another string form is unchanged; and when `a`
had no entry the whole state is unchanged (no handle is closed). -/
theorem clear_spec (c : closeablePooler) (a : Address) (hwf : WF c) :
    (∀ b ∈ (c.Clear a).List, b.String ≠ a.String) ∧
    (c.Clear a).trace = c.trace ++ (c.queue a).map Event.clientClose ∧
    (∀ h, ((c.Clear a).trace.drop c.trace.length).count (Event.clientClose h)
      = (c.queue a).count h) ∧
    ((c.queue a).Nodup → ∀ h ∈ c.queue a,
      ((c.Clear a).trace.drop c.trace.length).count (Event.clientClose h) = 1) ∧
    (∀ b : Address, b.String ≠ a.String → (c.Clear a).chan b.String = c.chan b.String) ∧
    (c.chan a.String = none → c.Clear a = c) := by
  refine ⟨?_, Clear_trace c a, ?_, ?_, ?_, Clear_of_absent c a⟩
  · intro b hb hba
    rw [mem_List_iff] at hb
    obtain ⟨k, hk, rfl⟩ := hb
    have hka : k = a.String := hba
    subst hka
    rw [Clear_entries c a hwf] at hk
    exact Entries.not_mem_keys_delete _ _ hk
  · intro h
    rw [Clear_trace, List.drop_left, count_clientClose_map]
  · intro hnd h hh
    rw [Clear_trace, List.drop_left, count_clientClose_map]
    exact List.count_eq_one_of_mem hnd hh
  · intro b hb
    exact Clear_chan_other c a b.String hb

/-- Witness of C6: `Clear(x)` on `exPool` closes the two idle handles of `x`
and leaves the entry of `y`. -/
theorem clear_spec_witness :
    WF exPool ∧
    (∀ b ∈ (exPool.Clear (NewAddressFromString "x")).List,
      b.String ≠ (NewAddressFromString "x").String) ∧
    (exPool.Clear (NewAddressFromString "x")).trace
      = exPool.trace ++ (exPool.queue (NewAddressFromString "x")).map Event.clientClose ∧
    (exPool.Clear (NewAddressFromString "x")).trace
      = [Event.clientClose ⟨11⟩, Event.clientClose ⟨12⟩] ∧
    (∀ h ∈ exPool.queue (NewAddressFromString "x"),
      ((exPool.Clear (NewAddressFromString "x")).trace.drop exPool.trace.length).count
        (Event.clientClose h) = 1) ∧
    (exPool.Clear (NewAddressFromString "x")).queue (NewAddressFromString "y") = [⟨13⟩] :=
  ⟨by decide, (clear_spec exPool (NewAddressFromString "x") (by decide)).1,
    (clear_spec exPool (NewAddressFromString "x") (by decide)).2.1, by decide,
    (clear_spec exPool (NewAddressFromString "x") (by decide)).2.2.2.1 (by decide),
    by decide⟩

theorem List_of_no_entries (c : closeablePooler) (h : c.entries = []) : c.List = [] := by
  simp [closeablePooler.List, h, Entries.keys]

/-- C7 (`Close` empties the pool).  On a pool state that satisfies the invariant
of the methods, `Close()` returns the nil error; afterwards `List()` is empty;
the outside calls made are one `Close` for each idle handle of each queue and
nothing else (a handle is closed as many times as it was queued: exactly once
each when the idle handles are distinct); and a second `Close()` returns the
nil error, leaves the state as it is and so closes no further handle.  The order in which the loop visits the
keys does not matter: in every order the map ends up without entries and the
same handles are closed. -/
theorem close_empties_pool (c : closeablePooler) (hwf : WF c) :
    c.Close.1 = none ∧ c.Close.2.List = [] ∧
    (∃ closed : List Client, c.Close.2.trace = c.trace ++ closed.map Event.clientClose ∧
      closed.Perm (allIdle c)) ∧
    (∀ h, (c.Close.2.trace.drop c.trace.length).count (Event.clientClose h)
      = (allIdle c).count h) ∧
    ((allIdle c).Nodup → ∀ h ∈ allIdle c,
      (c.Close.2.trace.drop c.trace.length).count (Event.clientClose h) = 1) ∧
    c.Close.2.Close = (none, c.Close.2) ∧
    (∀ order : List String, order.Perm c.entries.keys →
      (rangeClear order c).List = [] ∧
      ∃ closed : List Client,
        (rangeClear order c).trace = c.trace ++ closed.map Event.clientClose ∧
        closed.Perm (allIdle c)) := by
  refine ⟨rfl, List_of_no_entries _ (Close_snd_entries c hwf),
    ⟨allIdle c, Close_snd_trace c hwf, List.Perm.refl _⟩, ?_, ?_,
    Close_of_no_entries _ (Close_snd_entries c hwf), ?_⟩
  · intro h
    rw [Close_snd_trace c hwf, List.drop_left, count_clientClose_map]
  · intro hnd h hh
    rw [Close_snd_trace c hwf, List.drop_left, count_clientClose_map]
    exact List.count_eq_one_of_mem hnd hh
  · intro order hperm
    obtain ⟨h1, h2⟩ := rangeClear_cover order c hwf (fun k hk => hperm.mem_iff.2 hk)
    exact ⟨List_of_no_entries _ h1, h2⟩

/-- Witness of C7: `Close()` on `exPool` closes the handles 11, 12 and 13. -/
theorem close_empties_pool_witness :
    WF exPool ∧ exPool.Close.1 = none ∧ exPool.Close.2.List = [] ∧
    (∀ h ∈ allIdle exPool,
      (exPool.Close.2.trace.drop exPool.trace.length).count (Event.clientClose h) = 1) ∧
    allIdle exPool = [⟨11⟩, ⟨12⟩, ⟨13⟩] ∧
    exPool.Close.2.Close = (none, exPool.Close.2) :=
  ⟨by decide, (close_empties_pool exPool (by decide)).1,
    (close_empties_pool exPool (by decide)).2.1,
    (close_empties_pool exPool (by decide)).2.2.2.2.1 (by decide), by decide,
    (close_empties_pool exPool (by decide)).2.2.2.2.2.1⟩

/-- C8 (dial failure).  When `a` has no idle handle and the dialer returns the
error `e` for `a`, `Aquire(a)` returns `(nil, nil, e)` and `Call(a, ...)` returns
`e`; in both cases the state afterwards is the state before with one `Dial` of
`a` added to the trace: the dialer was invoked once, no remote call and no
`Close` was made, no entry was created, the map and all queues are unchanged. -/
theorem dial_failure (c : closeablePooler) (a : Address) (e : Error) (m : String)
    (args : Args) (hq : c.queue a = []) (hd : c.dialer c.trace a = .error e) :
    c.Aquire a = (.error e, { c with trace := c.trace ++ [Event.dial a] }) ∧
    c.Call a m args = .ok (some e, { c with trace := c.trace ++ [Event.dial a] }) := by
  have h1 : c.Aquire a = (.error e, { c with trace := c.trace ++ [Event.dial a] }) := by
    rw [Aquire_miss c a hq, hd]
  refine ⟨h1, ?_⟩
  simp [closeablePooler.Call, h1]

/-- Witness of C8: the dialer of `exPool` refuses the address `down`. -/
theorem dial_failure_witness :
    exPool.queue (NewAddressFromString "down") = [] ∧
    exPool.Aquire (NewAddressFromString "down") = (.error "connection refused",
      { exPool with trace := exPool.trace ++ [Event.dial (NewAddressFromString "down")] }) ∧
    exPool.Call (NewAddressFromString "down") "Svc.Ping" 0 = .ok (some "connection refused",
      { exPool with trace := exPool.trace ++ [Event.dial (NewAddressFromString "down")] }) :=
  ⟨by decide,
    dial_failure exPool (NewAddressFromString "down") "connection refused" "Svc.Ping" 0
      (by decide) rfl⟩


/-- The method `Return` for an address without an entry, on an allocated map with
a `max ≥ 0` of which a channel can be made, completes and leaves a channel
stored for the address. -/
theorem Return_creates (c : closeablePooler) (a : Address) (h : Client) (hp : c.pool ≠ none)
    (hmax : 0 ≤ c.max) (hlim : c.max ≤ (c.makeLimit : Int))
    (habs : c.chan a.String = none) :
    ∃ r c1 ch, c.Return a h = .ok (r, c1) ∧ c1.chan a.String = some ch := by
  obtain ⟨c0, h0, -, -, -, -, -, -⟩ := Init_of_alloc c a hmax hlim hp
  have hch := Init_chan_same c c0 a h0
  rw [Return_of_absent c a h habs, h0]
  simp only
  by_cases hroom : (Chan.make c.max.toNat).buf.length < (Chan.make c.max.toNat).cap
  · exact ⟨_, _, _, sendOrClose_room c0 a h _ hch rfl hroom,
      chan_after_store c0 a.String _ _ hch⟩
  · exact ⟨_, _, _, sendOrClose_full c0 a h _ hch rfl hroom, hch⟩

/-- C9 as amended (lazy entry creation by `Return`).  On a pool with an
allocated map and a `max ≥ 0` not above the largest size of which the run time
can make a channel, for an address `a` absent from the map: the first
`Return(a, h)` completes and creates the queue of `a`, so that `List()` taken
right after contains an address with the string form of `a`.  `Aquire(a)`
creates no entry: the map is unchanged and `List()` taken right after contains
no such address; when `Aquire(a)` succeeded, the queue of `a` is created once
the release function it returned is run. -/
theorem lazy_entry_creation (c : closeablePooler) (a : Address) (hp : c.pool ≠ none)
    (hmax : 0 ≤ c.max) (hlim : c.max ≤ (c.makeLimit : Int))
    (habs : c.chan a.String = none) :
    (∀ h, ∃ r c1, c.Return a h = .ok (r, c1) ∧ ∃ b ∈ c1.List, b.String = a.String) ∧
    ((c.Aquire a).2.pool = c.pool ∧ ∀ b ∈ (c.Aquire a).2.List, b.String ≠ a.String) ∧
    (∀ cl rel c1, c.Aquire a = (.ok (cl, rel), c1) →
      ∃ r c2, rel.run c1 = .ok (r, c2) ∧ ∃ b ∈ c2.List, b.String = a.String) := by
  have hq := queue_of_absent c a habs
  have hA := Aquire_miss c a hq
  refine ⟨?_, ⟨?_, ?_⟩, ?_⟩
  · intro h
    obtain ⟨r, c1, ch, h1, h2⟩ := Return_creates c a h hp hmax hlim habs
    exact ⟨r, c1, h1, exists_List_of_chan c1 a ch h2⟩
  · rw [hA]
  · intro b hb hba
    rw [hA, mem_List_iff] at hb
    obtain ⟨k, hk, rfl⟩ := hb
    have hka : k = a.String := hba
    subst hka
    exact (Entries.lookup_eq_none_iff _ _).1 habs hk
  · intro cl rel c1 hok
    rw [hA] at hok
    simp only [Prod.mk.injEq] at hok
    obtain ⟨hres, rfl⟩ := hok
    have hrel : rel.addr = a := by
      cases hd : c.dialer c.trace a with
      | error e => rw [hd] at hres; cases hres
      | ok conn =>
        rw [hd] at hres
        simp only [Except.ok.injEq, Prod.mk.injEq] at hres
        rw [← hres.2]
    obtain ⟨r, c2, ch, h1, h2⟩ := Return_creates
      { c with trace := c.trace ++ [Event.dial a] } a rel.cl hp hmax hlim habs
    refine ⟨r, c2, ?_, exists_List_of_chan c2 a ch h2⟩
    simp only [Release.run, hrel]
    exact h1

/-- Witness of C9 as amended: the address `a` is absent from `exEmpty`. -/
theorem lazy_entry_creation_witness :
    exEmpty.pool ≠ none ∧ exEmpty.chan (NewAddressFromString "a").String = none ∧
    (∀ h, ∃ r c1, exEmpty.Return (NewAddressFromString "a") h = .ok (r, c1) ∧
      ∃ b ∈ c1.List, b.String = (NewAddressFromString "a").String) ∧
    (exEmpty.Aquire (NewAddressFromString "a")).2.pool = exEmpty.pool :=
  ⟨by decide, by decide,
    (lazy_entry_creation exEmpty (NewAddressFromString "a") (by decide) (by decide)
      (by decide) (by decide)).1,
    (lazy_entry_creation exEmpty (NewAddressFromString "a") (by decide) (by decide)
      (by decide) (by decide)).2.1.1⟩

/-- C9 as stated fails.  The map of `exEmpty` is allocated and has no entry for
`a`; `Aquire(a)` succeeds (the dialer connects), and `List()` taken right after
is empty: no queue was created for `a`.  The maps of `exHuge` (`max = 2 ^ 62`)
and of `exNegative` (`max = -1`) are allocated and have no entry for `a`;
`Return(a, 14)` panics in the `make` of `Init` and creates no queue. -/
theorem lazy_entry_creation_counterexample :
    (exEmpty.pool = some [] ∧ exEmpty.chan (NewAddressFromString "a").String = none ∧
      ∃ c1, exEmpty.Aquire (NewAddressFromString "a")
          = (.ok (⟨0⟩, ⟨NewAddressFromString "a", ⟨0⟩⟩), c1) ∧
        c1.List = [] ∧ c1.chan (NewAddressFromString "a").String = none) ∧
    (exHuge.pool = some [] ∧
      exHuge.Return (NewAddressFromString "a") ⟨14⟩ = .error Fault.makechanSize) ∧
    (exNegative.pool = some [] ∧
      exNegative.Return (NewAddressFromString "a") ⟨14⟩ = .error Fault.makechanSize) :=
  ⟨⟨rfl, by decide, _, rfl, by decide, by decide⟩, ⟨rfl, rfl⟩, ⟨rfl, rfl⟩⟩

/-! ## `TCP.Close` -/

theorem rangeClear_trace (ks : List String) (c : closeablePooler) :
    ∃ closed : List Client,
      (rangeClear ks c).trace = c.trace ++ closed.map Event.clientClose := by
  induction ks generalizing c with
  | nil => exact ⟨[], by simp [rangeClear]⟩
  | cons k ks ih =>
    obtain ⟨cl, h⟩ := ih (c.Clear (NewAddressFromString k))
    refine ⟨c.queue (NewAddressFromString k) ++ cl, ?_⟩
    simp only [rangeClear]
    rw [h, Clear_trace]
    simp

/-- C10 (`TCP.Close`).  For every listener (whatever its `Close` returns, an
error included) and every pool state, `TCP.Close` calls the listener's `Close`
and then the pool's `Close`: the state of the pool afterwards is the one its
`Close` leaves when run after the listener's, the trace shows the listener's
`Close` followed by the `Close` calls of client handles only, and the error
returned is the result of the pool's `Close`, which is nil. -/
theorem tcp_close (t : TCP) :
    t.Close.1 = ({ t.pl with trace := t.pl.trace ++ [Event.listenerClose] }).Close.1 ∧
    t.Close.2.pl = ({ t.pl with trace := t.pl.trace ++ [Event.listenerClose] }).Close.2 ∧
    t.Close.2.li = t.li ∧
    t.Close.1 = none ∧
    (∃ closed : List Client, t.Close.2.pl.trace
      = t.pl.trace ++ Event.listenerClose :: closed.map Event.clientClose) ∧
    (WF t.pl → t.Close.2.pl.List = [] ∧ t.Close.2.pl.trace
      = t.pl.trace ++ Event.listenerClose :: (allIdle t.pl).map Event.clientClose) := by
  refine ⟨rfl, rfl, rfl, rfl, ?_, ?_⟩
  · obtain ⟨cl, h⟩ := rangeClear_trace
      ({ t.pl with trace := t.pl.trace ++ [Event.listenerClose] } : closeablePooler).entries.keys
      { t.pl with trace := t.pl.trace ++ [Event.listenerClose] }
    refine ⟨cl, ?_⟩
    simp only [TCP.Close, closeablePooler.Close]
    rw [h]; simp
  · intro hwf
    have hwf1 : WF { t.pl with trace := t.pl.trace ++ [Event.listenerClose] } := hwf
    refine ⟨List_of_no_entries _ (Close_snd_entries _ hwf1), ?_⟩
    have := Close_snd_trace _ hwf1
    simp only [TCP.Close]
    rw [this]
    simp [allIdle, closeablePooler.entries]

/-- Witness of C10: with a listener whose `Close` fails, `TCP.Close` still closes
the pool `exPool` and returns the nil error of the pool's `Close`. -/
theorem tcp_close_witness :
    exListener.Close exPool.trace = some "use of closed network connection" ∧
    WF exPool ∧
    (TCP.Close ⟨exListener, exPool⟩).1 = none ∧
    (TCP.Close ⟨exListener, exPool⟩).2.pl.List = [] ∧
    (TCP.Close ⟨exListener, exPool⟩).2.pl.trace
      = exPool.trace ++ Event.listenerClose :: (allIdle exPool).map Event.clientClose :=
  ⟨rfl, by decide, (tcp_close ⟨exListener, exPool⟩).2.2.2.1,
    ((tcp_close ⟨exListener, exPool⟩).2.2.2.2.2 (by decide)).1,
    ((tcp_close ⟨exListener, exPool⟩).2.2.2.2.2 (by decide)).2⟩

end Rpcns
